import Mathlib

/-!
Verification development for the schema-patcher script `fix-all-schemas.py`.

The script walks a directory of generated JavaScript files and, for every
object-type schema block that declares a property set but lacks an
`additionalProperties:` declaration, inserts the line
`additionalProperties: false,` immediately before the block's closing brace.

Embedding conventions:
* A Python string is embedded as a `List Char` (Python strings are sequences
  of code points); the outer `String` boundary is converted with `String.toList`
  and `String.mk`.
* `content.split('\n')` / `'\n'.join(...)` are embedded as `splitLines` /
  `joinLines` over `List Char`.
* The Python substring test `needle in hay` is `listHas hay needle`.
* The `while i < len(lines)` loop of `add_additional_properties` advances its
  index by at least one per iteration, so `lines.length - i` iterations always
  suffice; the loop is embedded as the fuel-structural `patchFrom`, called with
  exactly that much fuel (`patchRun`, `patchPass`).  Fuel sufficiency is proved
  below (`patchFrom_fuel_sufficient`).
* File I/O is embedded by passing the outcome of each I/O action explicitly:
  a read yields `Except String String`, a write yields `Except String Unit`;
  the `try/except` of `process_file` becomes a match on these outcomes.
-/

namespace SchemaPatcher

/-- Python `hay.count(c)` for a single character, i.e. number of occurrences. -/
def countChar (c : Char) (l : List Char) : Nat :=
  l.count c

/-- Net brace balance of one line:
`line.count('{') - line.count('}')` (an `int` in Python, so `Int` here). -/
def balance (l : List Char) : Int :=
  (countChar '\x7b' l : Int) - (countChar '\x7d' l : Int)

/-- Python substring containment `needle in hay` on code-point sequences. -/
def listHas (hay needle : List Char) : Bool :=
  match hay with
  | [] => needle.isEmpty
  | c :: t => needle.isPrefixOf (c :: t) || listHas t needle

/-- Characters stripped by Python `str.lstrip()` (the ASCII whitespace
characters; the closing lines handled by the script are space-indented). -/
def pySpace (c : Char) : Bool :=
  c == ' ' || c == '\t' || c == '\n' || c == '\r' || c == '\x0b' || c == '\x0c'

/-- `len(line) - len(line.lstrip())`: the length of the leading whitespace. -/
def indentOf (l : List Char) : Nat :=
  l.length - (l.dropWhile pySpace).length

/-- Python `content.split('\n')`. -/
def splitLines : List Char → List (List Char)
  | [] => [[]]
  | c :: rest =>
    if c = '\n' then [] :: splitLines rest
    else
      match splitLines rest with
      | [] => [[c]]
      | l :: ls => (c :: l) :: ls

/-- Python `'\n'.join(lines)`. -/
def joinLines : List (List Char) → List Char
  | [] => []
  | [l] => l
  | l :: ls => l ++ '\n' :: joinLines ls

/-- The single-quoted object-type marker `type: 'object'`. -/
def objSingle : List Char := ("type: \x27object\x27").toList

/-- The double-quoted object-type marker `type: "object"`. -/
def objDouble : List Char := ("type: \"object\"").toList

/-- The properties-declaration marker `properties:`. -/
def propsMark : List Char := ("properties:").toList

/-- The reject-unknown-keys marker `additionalProperties:`. -/
def addlMark : List Char := ("additionalProperties:").toList

/-- The synthesized declaration `additionalProperties: false,`
(before indentation is prepended). -/
def addlDecl : List Char := ("additionalProperties: false,").toList

/-- The marker test of the main loop:
`"type: 'object'" in line or 'type: "object"' in line`. -/
def isMarkerLine (l : List Char) : Bool :=
  listHas l objSingle || listHas l objDouble

/-- Result of the look-ahead scan opened at a marker line: the
`has_properties` / `has_additional_properties` flags and
`closing_brace_line` (`none` embeds Python `None`). -/
structure ScanResult where
  hasProps : Bool
  hasAddl : Bool
  closing : Option Nat
  deriving DecidableEq, Repr

/-- The body of `for j in range(i + 1, min(i + 200, len(lines)))`:
`fuel` is the number of indices left in the range, `j` the current index,
`hp`/`ha`/`d` the running `has_properties`, `has_additional_properties`
and `brace_depth`.  Checks happen in source order: the two substring tests
(the first one against the depth BEFORE this line's braces are counted),
then the depth update, then the zero test that records the closing line
and breaks. -/
def scanStep (lines : List (List Char)) : Nat → Nat → Bool → Bool → Int → ScanResult
  | 0, _, hp, ha, _ => ScanResult.mk hp ha none
  | fuel + 1, j, hp, ha, d =>
    let fl := lines.getD j []
    let hp2 := hp || (listHas fl propsMark && decide (d > 0))
    let ha2 := ha || listHas fl addlMark
    let d2 := d + balance fl
    if d2 = 0 then ScanResult.mk hp2 ha2 (some j)
    else scanStep lines fuel (j + 1) hp2 ha2 d2

/-- The whole look-ahead opened at marker line `i`: the initial depth is the
marker line's own brace balance, and the range `range(i+1, min(i+200, len))`
provides `min (i+200) len - (i+1)` iterations starting at `j = i+1`. -/
def scanBlock (lines : List (List Char)) (i : Nat) : ScanResult :=
  scanStep lines (min (i + 200) lines.length - (i + 1)) (i + 1) false false
    (balance (lines.getD i []))

/-- `for k in range(i + 1, closing_brace_line): result.append(lines[k])`:
the lines strictly between the marker line and the closing line, verbatim. -/
def middleSlice (lines : List (List Char)) (a b : Nat) : List (List Char) :=
  (List.range' a (b - a)).map fun k => lines.getD k []

/-- The main `while i < len(lines)` loop of `add_additional_properties`.
`fuel` bounds the number of iterations; since each iteration advances `i`
by at least one, `lines.length - i` fuel always suffices (proved in
`patchFrom_fuel_sufficient`).  In the insert branch, the Python condition
`has_properties and not has_additional_properties and closing_brace_line`
is truthiness on `closing_brace_line`: `None` and `0` are falsy, hence the
match on `closing` and the extra `c != 0` test. -/
def patchFrom (lines : List (List Char)) : Nat → Nat → List (List Char)
  | 0, _ => []
  | fuel + 1, i =>
    if i < lines.length then
      let line := lines.getD i []
      if isMarkerLine line then
        let r := scanBlock lines i
        match r.closing with
        | some c =>
          if r.hasProps && !r.hasAddl && c != 0 then
            let closingLine := lines.getD c []
            line :: (middleSlice lines (i + 1) c ++
              (List.replicate (indentOf closingLine + 4) ' ' ++ addlDecl) ::
                closingLine :: patchFrom lines fuel (c + 1))
          else line :: patchFrom lines fuel (i + 1)
        | none => line :: patchFrom lines fuel (i + 1)
      else line :: patchFrom lines fuel (i + 1)
    else []

/-- The loop started at index `i` (with its canonical sufficient fuel). -/
def patchRun (lines : List (List Char)) (i : Nat) : List (List Char) :=
  patchFrom lines (lines.length - i) i

/-- The whole patch pass on a line sequence. -/
def patchPass (lines : List (List Char)) : List (List Char) :=
  patchFrom lines lines.length 0

/-- `add_additional_properties(content)`: split on newlines, run the
patch loop, join with newlines. -/
def add_additional_properties (content : String) : String :=
  String.mk (joinLines (patchPass (splitLines content.toList)))

/-- Observable outcome of `process_file` on one file: the content handed to
a write (if a write was attempted), the returned boolean, and the line
printed to `stderr` by the `except` handler (if any). -/
structure FileResult where
  written : Option String
  fixed : Bool
  errLog : Option String
  deriving DecidableEq, Repr

/-- `process_file(file_path)`, with the outcomes of the two I/O actions
passed explicitly: `readRes` is the result of opening and reading the file,
`writeRes content` the result of writing `content` back.  Any exception
(modelled as the `.error` outcomes) is caught by the `try/except` and
produces the stderr line and a `False` return. -/
def process_file (path : String) :
    Except String String → (String → Except String Unit) → FileResult
  | Except.error e, _ =>
    FileResult.mk none false (some ("Error processing " ++ path ++ ": " ++ e))
  | Except.ok content, writeRes =>
    if !(listHas content.toList objSingle) && !(listHas content.toList objDouble) then
      FileResult.mk none false none
    else
      let new_content := add_additional_properties content
      if new_content != content then
        match writeRes new_content with
        | Except.ok _ => FileResult.mk (some new_content) true none
        | Except.error e =>
          FileResult.mk (some new_content) false
            (some ("Error processing " ++ path ++ ": " ++ e))
      else FileResult.mk none false none

/-- One file of the run: its path and the outcomes of its I/O actions. -/
structure FileTask where
  path : String
  readRes : Except String String
  writeRes : String → Except String Unit

/-- The `for js_file in js_files` loop of `main`: returns
(files processed, files fixed, stderr lines in order). -/
def runFiles : List FileTask → Nat × Nat × List String
  | [] => (0, 0, [])
  | t :: ts =>
    let r := process_file t.path t.readRes t.writeRes
    let rest := runFiles ts
    (rest.1 + 1, rest.2.1 + (if r.fixed then 1 else 0), r.errLog.toList ++ rest.2.2)

/-- `main()`: if the root directory is missing, print the fatal error and
exit with status 1 before touching any file; otherwise process every file
and finish with status 0 (individual failures do not change the status).
Returns (exit status, files processed, files fixed, stderr lines). -/
def main (rootExists : Bool) (files : List FileTask) : Nat × Nat × Nat × List String :=
  if !rootExists then (1, 0, 0, ["Error: src/tools directory not found"])
  else
    let r := runFiles files
    (0, r.1, r.2.1, r.2.2)

/-! ### Concrete example inputs used below -/

/-- An object schema with a nested object schema, neither carrying a
reject-unknown-keys declaration.  Outer block: marker line 0, closing line 6;
inner block: marker line 2, closing line 4. -/
def exNested : List (List Char) :=
  [("a: \x7b type: \x27object\x27,").toList,
   ("  properties: \x7b").toList,
   ("    b: \x7b type: \x27object\x27,").toList,
   ("      properties: \x7b x: 1 \x7d,").toList,
   ("    \x7d,").toList,
   ("  \x7d,").toList,
   ("\x7d").toList]

/-- The same nested schema as one text (joined with newlines). -/
def exNestedText : String :=
  "a: \x7b type: \x27object\x27,\n  properties: \x7b\n    b: \x7b type: \x27object\x27,\n      properties: \x7b x: 1 \x7d,\n    \x7d,\n  \x7d,\n\x7d"

/-- The nested schema after one pass: the outer block got its declaration
(line 6), the inner block did not. -/
def exPatchedText : String :=
  "a: \x7b type: \x27object\x27,\n  properties: \x7b\n    b: \x7b type: \x27object\x27,\n      properties: \x7b x: 1 \x7d,\n    \x7d,\n  \x7d,\n    additionalProperties: false,\n\x7d"

/-- A single flat object block missing the declaration. -/
def exBlock : List (List Char) :=
  [("x: \x7b type: \x27object\x27,").toList,
   ("  properties: \x7b").toList,
   ("  \x7d,").toList,
   ("\x7d").toList]

/-- The same flat block as one text. -/
def exSingleText : String :=
  "x: \x7b type: \x27object\x27,\n  properties: \x7b\n  \x7d,\n\x7d"

/-- A block that already carries a reject-unknown-keys declaration. -/
def exAddl : List (List Char) :=
  [("x: \x7b type: \x27object\x27,").toList,
   ("  properties: \x7b \x7d,").toList,
   ("  additionalProperties: true,").toList,
   ("\x7d").toList]

/-- A marker whose block never closes within the input. -/
def exUnterminated : List (List Char) :=
  [("x: \x7b type: \x27object\x27,").toList,
   ("  properties: \x7b").toList]

/-- A one-line schema whose braces balance on the marker line itself. -/
def exOneLine : List (List Char) :=
  [("a: \x7b type: \x27object\x27, properties: \x7b x \x7d \x7d").toList]

/-- A flat object block missing the declaration, for the write test. -/
def exC7Text : String :=
  "y: \x7b type: \x27object\x27,\n  properties: \x7b\n  \x7d,\n\x7d"

/-! ### Scan lemmas -/

/-- If the look-ahead loop records a closing line `c`, then `c` lies in the
scanned range: at or after the loop's current index, within its fuel. -/
theorem scanStep_closing_bounds (lines : List (List Char)) :
    ∀ fuel j hp ha d c, (scanStep lines fuel j hp ha d).closing = some c →
      j ≤ c ∧ c < j + fuel := by
  intro fuel
  induction fuel with
  | zero => intro j hp ha d c h; exact absurd h (by simp [scanStep])
  | succ f ih =>
    intro j hp ha d c h
    simp only [scanStep] at h
    by_cases hd : d + balance (lines.getD j []) = 0
    · rw [if_pos hd] at h
      have h2 : some j = some c := h
      have h3 : j = c := Option.some.inj h2
      omega
    · rw [if_neg hd] at h
      have := ih (j + 1) _ _ _ c h
      omega

/-- The closing line recorded by a scan opened at marker line `i` is a real
line index strictly after `i`, inside both the file and the 200-line window. -/
theorem scanBlock_closing_bounds (lines : List (List Char)) (i : Nat) {c : Nat}
    (h : (scanBlock lines i).closing = some c) :
    i + 1 ≤ c ∧ c < lines.length ∧ c < i + 200 := by
  unfold scanBlock at h
  have := scanStep_closing_bounds lines _ _ _ _ _ _ h
  omega

/-- Once `has_additional_properties` is set, the scan keeps it set. -/
theorem scanStep_ha_mono (lines : List (List Char)) :
    ∀ fuel j hp d, (scanStep lines fuel j hp true d).hasAddl = true := by
  intro fuel
  induction fuel with
  | zero => intro j hp d; rfl
  | succ f ih =>
    intro j hp d
    simp only [scanStep]
    by_cases hd : d + balance (lines.getD j []) = 0
    · rw [if_pos hd]
      simp
    · rw [if_neg hd]
      exact ih _ _ _

/-! ### Step lemmas for the main loop -/

/-- Past the end of the line sequence, the loop emits nothing. -/
theorem patchFrom_stop (lines : List (List Char)) (fuel i : Nat)
    (h : lines.length ≤ i) : patchFrom lines fuel i = [] := by
  cases fuel with
  | zero => rfl
  | succ f => simp only [patchFrom]; rw [if_neg (Nat.not_lt.mpr h)]

/-- A non-marker line is copied verbatim and the cursor moves one line on. -/
theorem patchFrom_step_not_marker (lines : List (List Char)) (fuel i : Nat)
    (h1 : i < lines.length) (h2 : isMarkerLine (lines.getD i []) = false) :
    patchFrom lines (fuel + 1) i = lines.getD i [] :: patchFrom lines fuel (i + 1) := by
  simp only [patchFrom]
  rw [if_pos h1, if_neg (by rw [h2]; exact Bool.false_ne_true)]

/-- If the scan records no closing line, the marker line is copied verbatim
and the cursor moves one line on. -/
theorem patchFrom_step_closing_none (lines : List (List Char)) (fuel i : Nat)
    (h1 : i < lines.length) (h3 : (scanBlock lines i).closing = none) :
    patchFrom lines (fuel + 1) i = lines.getD i [] :: patchFrom lines fuel (i + 1) := by
  simp only [patchFrom]
  rw [if_pos h1]
  cases h2 : isMarkerLine (lines.getD i []) with
  | false => rw [if_neg Bool.false_ne_true]
  | true => rw [if_pos rfl, h3]

/-- If the scan records a closing line but the insert condition fails, the
marker line is copied verbatim and the cursor moves one line on. -/
theorem patchFrom_step_no_insert (lines : List (List Char)) (fuel i c : Nat)
    (h1 : i < lines.length) (hc : (scanBlock lines i).closing = some c)
    (h4 : ((scanBlock lines i).hasProps && !(scanBlock lines i).hasAddl && (c != 0)) = false) :
    patchFrom lines (fuel + 1) i = lines.getD i [] :: patchFrom lines fuel (i + 1) := by
  simp only [patchFrom]
  rw [if_pos h1]
  cases h2 : isMarkerLine (lines.getD i []) with
  | false => rw [if_neg Bool.false_ne_true]
  | true =>
    rw [if_pos rfl, hc]
    split
    · next c2 heq =>
      have hcc : c = c2 := Option.some.inj heq
      subst hcc
      rw [if_neg (by rw [h4]; exact Bool.false_ne_true)]
    · next heq => exact absurd heq (by simp)

/-- The insert step: when the scan finds a closing line, `has_properties`,
and no `has_additional_properties`, the loop emits the marker line, the
middle lines verbatim, the synthesized declaration (indented four spaces
past the closing line), the closing line verbatim, and resumes after it. -/
theorem patchFrom_step_insert (lines : List (List Char)) (fuel i c : Nat)
    (h1 : i < lines.length) (hm : isMarkerLine (lines.getD i []) = true)
    (hc : (scanBlock lines i).closing = some c)
    (h4 : (scanBlock lines i).hasProps = true)
    (h5 : (scanBlock lines i).hasAddl = false) (h6 : c ≠ 0) :
    patchFrom lines (fuel + 1) i = lines.getD i [] ::
      (middleSlice lines (i + 1) c ++
        (List.replicate (indentOf (lines.getD c []) + 4) ' ' ++ addlDecl) ::
          lines.getD c [] :: patchFrom lines fuel (c + 1)) := by
  simp only [patchFrom]
  rw [if_pos h1, if_pos hm, hc]
  split
  · next c2 heq =>
    have hcc : c = c2 := Option.some.inj heq
    subst hcc
    rw [if_pos (by simp [h4, h5, h6])]
  · next heq => exact absurd heq (by simp)

/-- Fuel irrelevance: any fuel of at least `lines.length - i` — one unit per
remaining line — produces the same output, because every iteration advances
the cursor by at least one line. -/
theorem patchFrom_fuel_sufficient (lines : List (List Char)) :
    ∀ fuel fuel' i, lines.length - i ≤ fuel → lines.length - i ≤ fuel' →
      patchFrom lines fuel i = patchFrom lines fuel' i := by
  intro fuel
  induction fuel with
  | zero =>
    intro fuel' i h h'
    have hi : lines.length ≤ i := by omega
    rw [patchFrom_stop _ _ _ hi, patchFrom_stop _ _ _ hi]
  | succ f ih =>
    intro fuel' i h h'
    by_cases hi : i < lines.length
    · cases fuel' with
      | zero => omega
      | succ g =>
        cases hm : isMarkerLine (lines.getD i []) with
        | true =>
          cases hcl : (scanBlock lines i).closing with
          | none =>
            rw [patchFrom_step_closing_none _ _ _ hi hcl,
              patchFrom_step_closing_none _ _ _ hi hcl, ih g (i + 1) (by omega) (by omega)]
          | some c =>
            cases hins :
                ((scanBlock lines i).hasProps && !(scanBlock lines i).hasAddl && (c != 0)) with
            | true =>
              simp only [Bool.and_eq_true] at hins
              obtain ⟨⟨hp, ha⟩, hc0⟩ := hins
              have ha' : (scanBlock lines i).hasAddl = false := by simpa using ha
              have hc0' : c ≠ 0 := by simpa using hc0
              have hb := scanBlock_closing_bounds lines i hcl
              rw [patchFrom_step_insert _ _ _ _ hi hm hcl hp ha' hc0',
                patchFrom_step_insert _ _ _ _ hi hm hcl hp ha' hc0',
                ih g (c + 1) (by omega) (by omega)]
            | false =>
              rw [patchFrom_step_no_insert _ _ _ _ hi hcl hins,
                patchFrom_step_no_insert _ _ _ _ hi hcl hins,
                ih g (i + 1) (by omega) (by omega)]
        | false =>
          rw [patchFrom_step_not_marker _ _ _ hi hm,
            patchFrom_step_not_marker _ _ _ hi hm, ih g (i + 1) (by omega) (by omega)]
    · have hi' : lines.length ≤ i := by omega
      rw [patchFrom_stop _ _ _ hi', patchFrom_stop _ _ _ hi']

/-! ### The loop at its canonical fuel -/

/-- `patchRun` agrees with `patchFrom` at any sufficient fuel. -/
theorem patchRun_eq_patchFrom (lines : List (List Char)) (fuel i : Nat)
    (h : lines.length - i ≤ fuel) : patchRun lines i = patchFrom lines fuel i := by
  unfold patchRun
  exact patchFrom_fuel_sufficient lines _ fuel i le_rfl h

/-- The whole pass is the loop started at index 0. -/
theorem patchPass_eq_patchRun (lines : List (List Char)) :
    patchPass lines = patchRun lines 0 := rfl

theorem patchRun_stop (lines : List (List Char)) (i : Nat) (h : lines.length ≤ i) :
    patchRun lines i = [] :=
  patchFrom_stop lines _ i h

theorem patchRun_step_not_marker (lines : List (List Char)) (i : Nat)
    (h1 : i < lines.length) (h2 : isMarkerLine (lines.getD i []) = false) :
    patchRun lines i = lines.getD i [] :: patchRun lines (i + 1) := by
  rw [patchRun_eq_patchFrom lines (lines.length - (i + 1) + 1) i (by omega),
    patchFrom_step_not_marker _ _ _ h1 h2]
  rfl

theorem patchRun_step_closing_none (lines : List (List Char)) (i : Nat)
    (h1 : i < lines.length) (h3 : (scanBlock lines i).closing = none) :
    patchRun lines i = lines.getD i [] :: patchRun lines (i + 1) := by
  rw [patchRun_eq_patchFrom lines (lines.length - (i + 1) + 1) i (by omega),
    patchFrom_step_closing_none _ _ _ h1 h3]
  rfl

theorem patchRun_step_no_insert (lines : List (List Char)) (i c : Nat)
    (h1 : i < lines.length) (hc : (scanBlock lines i).closing = some c)
    (h4 : ((scanBlock lines i).hasProps && !(scanBlock lines i).hasAddl && (c != 0)) = false) :
    patchRun lines i = lines.getD i [] :: patchRun lines (i + 1) := by
  rw [patchRun_eq_patchFrom lines (lines.length - (i + 1) + 1) i (by omega),
    patchFrom_step_no_insert _ _ _ _ h1 hc h4]
  rfl

theorem patchRun_step_insert (lines : List (List Char)) (i c : Nat)
    (h1 : i < lines.length) (hm : isMarkerLine (lines.getD i []) = true)
    (hc : (scanBlock lines i).closing = some c)
    (h4 : (scanBlock lines i).hasProps = true)
    (h5 : (scanBlock lines i).hasAddl = false) (h6 : c ≠ 0) :
    patchRun lines i = lines.getD i [] ::
      (middleSlice lines (i + 1) c ++
        (List.replicate (indentOf (lines.getD c []) + 4) ' ' ++ addlDecl) ::
          lines.getD c [] :: patchRun lines (c + 1)) := by
  have hb := scanBlock_closing_bounds lines i hc
  rw [patchRun_eq_patchFrom lines (lines.length - (i + 1) + 1) i (by omega),
    patchFrom_step_insert _ _ _ _ h1 hm hc h4 h5 h6,
    patchFrom_fuel_sufficient lines (lines.length - (i + 1)) (lines.length - (c + 1)) (c + 1)
      (by omega) (by omega)]
  rfl

/-! ### The middle slice as take/drop, and a decomposition of the input -/

theorem middleSlice_eq_take (lines : List (List Char)) :
    ∀ n a, a + n ≤ lines.length → middleSlice lines a (a + n) = (lines.drop a).take n := by
  intro n
  induction n with
  | zero => intro a h; simp [middleSlice]
  | succ k ih =>
    intro a h
    have h1 : a < lines.length := by omega
    unfold middleSlice
    rw [show a + (k + 1) - a = k + 1 by omega, List.range'_succ, List.map_cons]
    have h2 : (List.range' (a + 1) k).map (fun j => lines.getD j []) =
        middleSlice lines (a + 1) ((a + 1) + k) := by
      unfold middleSlice
      rw [show (a + 1) + k - (a + 1) = k by omega]
    rw [h2, ih (a + 1) (by omega),
      List.drop_eq_getElem_cons h1, List.take_succ_cons, List.getD_eq_getElem lines [] h1]

theorem middleSlice_eq (lines : List (List Char)) (a b : Nat)
    (hab : a ≤ b) (hb : b ≤ lines.length) :
    middleSlice lines a b = (lines.drop a).take (b - a) := by
  have := middleSlice_eq_take lines (b - a) a (by omega)
  rw [show a + (b - a) = b by omega] at this
  exact this

/-- Splitting the input tail at a closing line `c`: the line at the cursor,
the middle slice, the closing line, and the rest. -/
theorem drop_decomp (lines : List (List Char)) (i c : Nat)
    (hic : i < c) (hc : c < lines.length) :
    lines.drop i = lines.getD i [] ::
      (middleSlice lines (i + 1) c ++ lines.getD c [] :: lines.drop (c + 1)) := by
  have hi : i < lines.length := by omega
  rw [List.drop_eq_getElem_cons hi, List.getD_eq_getElem lines [] hi]
  congr 1
  rw [middleSlice_eq lines (i + 1) c (by omega) (by omega)]
  conv_lhs => rw [← List.take_append_drop (c - (i + 1)) (lines.drop (i + 1))]
  congr 1
  rw [List.drop_drop, show (i + 1) + (c - (i + 1)) = c by omega,
    List.drop_eq_getElem_cons hc, List.getD_eq_getElem lines [] hc]

/-! ### The pass only inserts lines -/

/-- Helper for the three copy cases: consing the copied current line onto a
correct continuation stays correct. -/
theorem copy_case (lines : List (List Char)) (i : Nat) (hi : i < lines.length)
    (rest : List (List Char)) (hs : (lines.drop (i + 1)).Sublist rest)
    (hmem : ∀ l ∈ rest, l ∈ lines ∨ ∃ n, l = List.replicate n ' ' ++ addlDecl) :
    (lines.drop i).Sublist (lines.getD i [] :: rest) ∧
      ∀ l ∈ lines.getD i [] :: rest, l ∈ lines ∨ ∃ n, l = List.replicate n ' ' ++ addlDecl := by
  constructor
  · rw [List.drop_eq_getElem_cons hi, ← List.getD_eq_getElem lines [] hi]
    exact List.Sublist.cons₂ _ hs
  · intro l hl
    rcases List.mem_cons.mp hl with rfl | hl2
    · left
      rw [List.getD_eq_getElem lines [] hi]
      exact List.getElem_mem _
    · exact hmem l hl2

/-- Core invariant of the pass: the input lines from the cursor on form a
sublist (order-preserving subsequence) of the output, and every output line
is either an input line or a synthesized reject-unknown-keys declaration. -/
theorem patchFrom_sublist_mem (lines : List (List Char)) :
    ∀ fuel i, lines.length - i ≤ fuel →
      (lines.drop i).Sublist (patchFrom lines fuel i) ∧
      ∀ l ∈ patchFrom lines fuel i, l ∈ lines ∨ ∃ n, l = List.replicate n ' ' ++ addlDecl := by
  intro fuel
  induction fuel with
  | zero =>
    intro i h
    have hi : lines.length ≤ i := by omega
    refine ⟨?_, ?_⟩
    · rw [List.drop_eq_nil_of_le hi]
      exact List.nil_sublist _
    · intro l hl
      exact absurd hl (List.not_mem_nil l)
  | succ f ih =>
    intro i h
    by_cases hi : i < lines.length
    · cases hm : isMarkerLine (lines.getD i []) with
      | false =>
        rw [patchFrom_step_not_marker _ _ _ hi hm]
        obtain ⟨hs, hmem⟩ := ih (i + 1) (by omega)
        exact copy_case lines i hi _ hs hmem
      | true =>
        cases hcl : (scanBlock lines i).closing with
        | none =>
          rw [patchFrom_step_closing_none _ _ _ hi hcl]
          obtain ⟨hs, hmem⟩ := ih (i + 1) (by omega)
          exact copy_case lines i hi _ hs hmem
        | some c =>
          cases hins :
              ((scanBlock lines i).hasProps && !(scanBlock lines i).hasAddl && (c != 0)) with
          | false =>
            rw [patchFrom_step_no_insert _ _ _ _ hi hcl hins]
            obtain ⟨hs, hmem⟩ := ih (i + 1) (by omega)
            exact copy_case lines i hi _ hs hmem
          | true =>
            simp only [Bool.and_eq_true] at hins
            obtain ⟨⟨hp, ha⟩, hc0⟩ := hins
            have ha' : (scanBlock lines i).hasAddl = false := by simpa using ha
            have hc0' : c ≠ 0 := by simpa using hc0
            have hb := scanBlock_closing_bounds lines i hcl
            rw [patchFrom_step_insert _ _ _ _ hi hm hcl hp ha' hc0']
            obtain ⟨hs, hmem⟩ := ih (c + 1) (by omega)
            have hdec := drop_decomp lines i c (by omega) (by omega)
            refine ⟨?_, ?_⟩
            · rw [hdec]
              refine List.Sublist.cons₂ _ (List.Sublist.append_left ?_ _)
              exact List.Sublist.cons _ (List.Sublist.cons₂ _ hs)
            · intro l hl
              rcases List.mem_cons.mp hl with rfl | hl
              · left
                rw [List.getD_eq_getElem lines [] hi]
                exact List.getElem_mem _
              rcases List.mem_append.mp hl with hl | hl
              · left
                rw [middleSlice_eq lines (i + 1) c (by omega) (by omega)] at hl
                exact List.mem_of_mem_drop (List.mem_of_mem_take hl)
              rcases List.mem_cons.mp hl with rfl | hl
              · right
                exact ⟨indentOf (lines.getD c []) + 4, rfl⟩
              rcases List.mem_cons.mp hl with rfl | hl
              · left
                rw [List.getD_eq_getElem lines [] (by omega : c < lines.length)]
                exact List.getElem_mem _
              · exact hmem l hl
    · have hi' : lines.length ≤ i := by omega
      rw [patchFrom_stop _ _ _ hi']
      refine ⟨?_, ?_⟩
      · rw [List.drop_eq_nil_of_le hi']
      · intro l hl
        exact absurd hl (List.not_mem_nil l)

/-! ### Regions without markers are copied verbatim -/

/-- If no line at or after the cursor is a marker line, the loop copies the
rest of the input verbatim. -/
theorem patchRun_no_marker (lines : List (List Char)) :
    ∀ n i, lines.length - i ≤ n →
      (∀ j, i ≤ j → j < lines.length → isMarkerLine (lines.getD j []) = false) →
      patchRun lines i = lines.drop i := by
  intro n
  induction n with
  | zero =>
    intro i h hnm
    rw [patchRun_stop _ _ (by omega), List.drop_eq_nil_of_le (by omega)]
  | succ k ih =>
    intro i h hnm
    by_cases hi : i < lines.length
    · rw [patchRun_step_not_marker _ _ hi (hnm i le_rfl hi),
        ih (i + 1) (by omega) (fun j hj1 hj2 => hnm j (by omega) hj2)]
      conv_rhs => rw [List.drop_eq_getElem_cons hi]
      rw [List.getD_eq_getElem lines [] hi]
    · rw [patchRun_stop _ _ (by omega), List.drop_eq_nil_of_le (by omega)]

/-- If no line in `[i, m)` is a marker line, the loop copies those lines
verbatim and continues from `m`. -/
theorem patchRun_copy_until (lines : List (List Char)) :
    ∀ n i m, m - i ≤ n → i ≤ m → m ≤ lines.length →
      (∀ j, i ≤ j → j < m → isMarkerLine (lines.getD j []) = false) →
      patchRun lines i = (lines.drop i).take (m - i) ++ patchRun lines m := by
  intro n
  induction n with
  | zero =>
    intro i m h him hm hnm
    have hmi : m = i := by omega
    subst hmi
    simp
  | succ k ih =>
    intro i m h him hm hnm
    by_cases him2 : i < m
    · have hi : i < lines.length := by omega
      rw [patchRun_step_not_marker _ _ hi (hnm i le_rfl him2),
        ih (i + 1) m (by omega) (by omega) hm (fun j h1 h2 => hnm j (by omega) h2)]
      conv_rhs => rw [List.drop_eq_getElem_cons hi]
      rw [show m - i = (m - (i + 1)) + 1 by omega, List.take_succ_cons,
        List.getD_eq_getElem lines [] hi, List.cons_append]
    · have hmi : m = i := by omega
      subst hmi
      simp

/-! ### Substring-test lemmas -/

theorem listHas_cons (c : Char) (t needle : List Char) :
    listHas (c :: t) needle = (needle.isPrefixOf (c :: t) || listHas t needle) := rfl

theorem listHas_tail (c : Char) (t needle : List Char) (h : listHas t needle = true) :
    listHas (c :: t) needle = true := by
  rw [listHas_cons, h, Bool.or_true]

/-- A needle that does not start with a space is never a prefix of a line
starting with a space. -/
theorem isPrefixOf_space_false (needle : List Char) (hnn : needle ≠ [])
    (hne : needle.head? ≠ some ' ') (s : List Char) :
    needle.isPrefixOf (' ' :: s) = false := by
  cases needle with
  | nil => exact absurd rfl hnn
  | cons a t =>
    have ha : (a == ' ') = false := by
      simp only [List.head?_cons, ne_eq, Option.some.injEq] at hne
      simp [hne]
    simp [List.isPrefixOf, ha]

/-- Prepending spaces does not affect containment of a needle that does not
start with a space. -/
theorem listHas_replicate_space (needle : List Char) (hnn : needle ≠ [])
    (hne : needle.head? ≠ some ' ') :
    ∀ n (l : List Char), listHas (List.replicate n ' ' ++ l) needle = listHas l needle := by
  intro n
  induction n with
  | zero => intro l; rfl
  | succ k ih =>
    intro l
    rw [List.replicate_succ, List.cons_append, listHas_cons,
      isPrefixOf_space_false needle hnn hne, Bool.false_or, ih]

/-- A synthesized declaration line is never an object-type marker line. -/
theorem inserted_not_marker (n : Nat) :
    isMarkerLine (List.replicate n ' ' ++ addlDecl) = false := by
  unfold isMarkerLine
  rw [listHas_replicate_space objSingle (by decide) (by decide),
    listHas_replicate_space objDouble (by decide) (by decide)]
  decide

/-- A synthesized declaration line contains the reject-unknown-keys marker. -/
theorem inserted_hasAddl (n : Nat) :
    listHas (List.replicate n ' ' ++ addlDecl) addlMark = true := by
  rw [listHas_replicate_space addlMark (by decide) (by decide)]
  decide

/-- A synthesized declaration line contains no newline. -/
theorem inserted_no_newline (n : Nat) : '\n' ∉ List.replicate n ' ' ++ addlDecl := by
  intro hmem
  rcases List.mem_append.mp hmem with hm | hm
  · exact absurd (List.eq_of_mem_replicate hm) (by decide)
  · exact absurd hm (by decide)

/-! ### Lemmas on splitting and joining lines -/

theorem splitLines_ne_nil (l : List Char) : splitLines l ≠ [] := by
  cases l with
  | nil => exact fun h => List.noConfusion h
  | cons c rest =>
    simp only [splitLines]
    by_cases hc : c = '\n'
    · rw [if_pos hc]
      exact fun h => List.noConfusion h
    · rw [if_neg hc]
      cases h : splitLines rest with
      | nil => exact fun h2 => List.noConfusion h2
      | cons a as => exact fun h2 => List.noConfusion h2

theorem mem_splitLines_no_newline (l : List Char) :
    ∀ p ∈ splitLines l, '\n' ∉ p := by
  induction l with
  | nil =>
    intro p hp
    simp only [splitLines, List.mem_singleton] at hp
    subst hp
    exact List.not_mem_nil _
  | cons c rest ih =>
    intro p hp
    by_cases hc : c = '\n'
    · simp only [splitLines, if_pos hc] at hp
      rcases List.mem_cons.mp hp with rfl | hp2
      · exact List.not_mem_nil _
      · exact ih p hp2
    · simp only [splitLines, if_neg hc] at hp
      cases hsr : splitLines rest with
      | nil => exact absurd hsr (splitLines_ne_nil rest)
      | cons a as =>
        rw [hsr] at hp
        rcases List.mem_cons.mp hp with rfl | hp2
        · intro hmem
          rcases List.mem_cons.mp hmem with h1 | h1
          · exact hc h1.symm
          · exact ih a (by rw [hsr]; exact List.mem_cons_self a as) h1
        · exact ih p (by rw [hsr]; exact List.mem_cons.mpr (Or.inr hp2))

theorem joinLines_splitLines (l : List Char) : joinLines (splitLines l) = l := by
  induction l with
  | nil => rfl
  | cons c rest ih =>
    by_cases hc : c = '\n'
    · subst hc
      simp only [splitLines, if_pos rfl]
      cases h : splitLines rest with
      | nil => exact absurd h (splitLines_ne_nil rest)
      | cons a as =>
        show ([] : List Char) ++ '\n' :: joinLines (a :: as) = '\n' :: rest
        rw [List.nil_append, ← h, ih]
    · simp only [splitLines, if_neg hc]
      cases h : splitLines rest with
      | nil => exact absurd h (splitLines_ne_nil rest)
      | cons a as =>
        cases as with
        | nil =>
          show c :: a = c :: rest
          have ha : a = rest := by
            have h2 := ih
            rw [h] at h2
            exact h2
          rw [ha]
        | cons b bs =>
          show (c :: a) ++ '\n' :: joinLines (b :: bs) = c :: rest
          rw [List.cons_append]
          have ha : a ++ '\n' :: joinLines (b :: bs) = rest := by
            have h2 := ih
            rw [h] at h2
            exact h2
          rw [ha]

theorem splitLines_of_no_newline (l : List Char) (h : '\n' ∉ l) : splitLines l = [l] := by
  induction l with
  | nil => rfl
  | cons c rest ih =>
    have hc : ¬ c = '\n' := fun he => h (by rw [he]; exact List.mem_cons_self _ _)
    simp only [splitLines, if_neg hc]
    rw [ih (fun hm => h (List.mem_cons_of_mem c hm))]

theorem splitLines_append_newline (a : List Char) (t : List Char) (h : '\n' ∉ a) :
    splitLines (a ++ '\n' :: t) = a :: splitLines t := by
  induction a with
  | nil => simp [splitLines]
  | cons c cs ih =>
    have hc : ¬ c = '\n' := fun he => h (by rw [he]; exact List.mem_cons_self _ _)
    show splitLines (c :: (cs ++ '\n' :: t)) = (c :: cs) :: splitLines t
    simp only [splitLines, if_neg hc]
    rw [ih (fun hm => h (List.mem_cons_of_mem c hm))]

theorem splitLines_joinLines : ∀ ls : List (List Char), ls ≠ [] →
    (∀ p ∈ ls, '\n' ∉ p) → splitLines (joinLines ls) = ls := by
  intro ls
  induction ls with
  | nil => intro h _; exact absurd rfl h
  | cons a as ih =>
    intro _ hnn
    cases as with
    | nil =>
      show splitLines a = [a]
      exact splitLines_of_no_newline a (hnn a (List.mem_cons_self a []))
    | cons b bs =>
      show splitLines (a ++ '\n' :: joinLines (b :: bs)) = a :: b :: bs
      rw [splitLines_append_newline a _ (hnn a (List.mem_cons_self _ _)),
        ih (fun h => List.noConfusion h) (fun p hp => hnn p (List.mem_cons_of_mem a hp))]

/-- The whole text starts with the first piece of its line split. -/
theorem splitLines_head_prefix_aux (l : List Char) :
    ∃ r, l = (splitLines l).headD [] ++ r := by
  induction l with
  | nil => exact ⟨[], rfl⟩
  | cons c rest ih =>
    by_cases hc : c = '\n'
    · subst hc
      exact ⟨'\n' :: rest, by simp [splitLines]⟩
    · obtain ⟨r, hr⟩ := ih
      simp only [splitLines, if_neg hc]
      cases h : splitLines rest with
      | nil => exact absurd h (splitLines_ne_nil rest)
      | cons a as =>
        refine ⟨r, ?_⟩
        rw [h] at hr
        simp only [List.headD_cons] at hr ⊢
        rw [List.cons_append, ← hr]

/-- Containment in a piece of the line split implies containment in the
whole text. -/
theorem listHas_of_mem_splitLines (needle : List Char) :
    ∀ l p, p ∈ splitLines l → listHas p needle = true → listHas l needle = true := by
  intro l
  induction l with
  | nil =>
    intro p hp h
    simp only [splitLines, List.mem_singleton] at hp
    subst hp
    exact h
  | cons c rest ih =>
    intro p hp h
    by_cases hc : c = '\n'
    · simp only [splitLines, if_pos hc] at hp
      rcases List.mem_cons.mp hp with rfl | hp2
      · have hn : needle = [] := by
          cases needle with
          | nil => rfl
          | cons x xs => exact absurd h (by simp [listHas])
        subst hn
        rw [listHas_cons]
        simp [List.isPrefixOf]
      · exact listHas_tail _ _ _ (ih p hp2 h)
    · simp only [splitLines, if_neg hc] at hp
      cases hsr : splitLines rest with
      | nil => exact absurd hsr (splitLines_ne_nil rest)
      | cons a as =>
        rw [hsr] at hp
        rcases List.mem_cons.mp hp with rfl | hp2
        · rw [listHas_cons] at h
          rcases Bool.or_eq_true_iff.mp h with hpre | hrest
          · obtain ⟨r, hr⟩ := splitLines_head_prefix_aux rest
            rw [hsr] at hr
            simp only [List.headD_cons] at hr
            rw [listHas_cons]
            refine Bool.or_eq_true_iff.mpr (Or.inl ?_)
            rw [List.isPrefixOf_iff_prefix] at hpre ⊢
            exact hpre.trans (by rw [hr, ← List.cons_append]; exact List.prefix_append _ r)
          · exact listHas_tail _ _ _
              (ih a (by rw [hsr]; exact List.mem_cons_self _ _) hrest)
        · exact listHas_tail _ _ _
            (ih p (by rw [hsr]; exact List.mem_cons.mpr (Or.inr hp2)) h)

/-- Contrapositive form: if the whole text lacks a needle, so does every
piece of its line split. -/
theorem not_listHas_piece (needle l p : List Char) (hp : p ∈ splitLines l)
    (h : listHas l needle = false) : listHas p needle = false := by
  cases hq : listHas p needle with
  | false => rfl
  | true =>
    exact absurd (listHas_of_mem_splitLines needle l p hp hq)
      (by rw [h]; exact Bool.false_ne_true)

/-! ### Helpers around a single insertion -/

/-- Indexing into a list with one line inserted at position `c`. -/
theorem getD_insertAt (L : List (List Char)) (new : List Char) (c : Nat)
    (hc : c ≤ L.length) :
    ∀ k, (L.take c ++ new :: L.drop c).getD k [] =
      if k < c then L.getD k [] else if k = c then new else L.getD (k - 1) [] := by
  intro k
  have hlt : (L.take c).length = c := by
    rw [List.length_take]
    omega
  by_cases h1 : k < c
  · rw [if_pos h1, List.getD_append _ _ _ _ (by omega), List.getD_eq_getElem?_getD,
      List.getElem?_take, if_pos h1, ← List.getD_eq_getElem?_getD]
  · rw [if_neg h1, List.getD_append_right _ _ _ _ (by omega), hlt]
    by_cases h2 : k = c
    · subst h2
      rw [if_pos rfl, Nat.sub_self]
      rfl
    · rw [if_neg h2, show k - c = (k - c - 1) + 1 by omega]
      show (L.drop c).getD (k - c - 1) [] = L.getD (k - 1) []
      rw [List.getD_eq_getElem?_getD, List.getElem?_drop, ← List.getD_eq_getElem?_getD,
        show c + (k - c - 1) = k - 1 by omega]

theorem length_insertAt (L : List (List Char)) (new : List Char) (c : Nat)
    (hc : c ≤ L.length) :
    (L.take c ++ new :: L.drop c).length = L.length + 1 := by
  rw [List.length_append, List.length_cons, List.length_take, List.length_drop]
  omega

/-- Recombining a list from its prefix, one indexed line, and its tail. -/
theorem take_cons_drop (X : List (List Char)) (m : Nat) (hm : m < X.length) :
    X.take m ++ X.getD m [] :: X.drop (m + 1) = X := by
  conv_rhs => rw [← List.take_append_drop m X]
  rw [List.drop_eq_getElem_cons hm, List.getD_eq_getElem X [] hm]

/-- Peeling the line at `m` off a longer prefix. -/
theorem take_decomp (L : List (List Char)) (m c : Nat) (hmc : m < c)
    (hc : c ≤ L.length) :
    L.take c = L.take m ++ L.getD m [] :: (L.drop (m + 1)).take (c - (m + 1)) := by
  have h1 : L.take m ++ (L.drop m).take (c - m) = L.take c := by
    rw [← List.take_add, show m + (c - m) = c by omega]
  rw [← h1, List.drop_eq_getElem_cons (show m < L.length by omega),
    show c - m = (c - (m + 1)) + 1 by omega, List.take_succ_cons,
    List.getD_eq_getElem L [] (show m < L.length by omega)]

/-- If every line except possibly `m` is a non-marker and the step at `m`
just copies its line, the pass is the identity. -/
theorem patchPass_eq_self_of_copy_at (L : List (List Char)) (m : Nat)
    (hm : m < L.length)
    (hnm : ∀ j, j < L.length → j ≠ m → isMarkerLine (L.getD j []) = false)
    (hstep : patchRun L m = L.getD m [] :: patchRun L (m + 1)) :
    patchPass L = L := by
  rw [patchPass_eq_patchRun,
    patchRun_copy_until L L.length 0 m (by omega) (by omega) (by omega)
      (fun j h1 h2 => hnm j (by omega) (by omega)),
    hstep,
    patchRun_no_marker L L.length (m + 1) (by omega) (fun j h1 h2 => hnm j h2 (by omega))]
  simp only [List.drop_zero, Nat.sub_zero]
  exact take_cons_drop L m hm

/-- Parallel-scan lemma: if the scan of `L` starting at `j` breaks at closing
line `c`, and `Lp` agrees with `L` strictly below `c` but holds a line
containing the reject-unknown-keys marker at `c`, then the corresponding scan
of `Lp` (with at least as much fuel) sets `has_additional_properties`. -/
theorem scanStep_insert_parallel (L Lp : List (List Char)) (c : Nat)
    (hagree : ∀ k, k < c → Lp.getD k [] = L.getD k [])
    (hnew : listHas (Lp.getD c []) addlMark = true) :
    ∀ fuel fuel' j hp ha d, j ≤ c →
      (scanStep L fuel j hp ha d).closing = some c → fuel ≤ fuel' →
      (scanStep Lp fuel' j hp ha d).hasAddl = true := by
  intro fuel
  induction fuel with
  | zero =>
    intro fuel' j hp ha d hj h hf
    exact absurd h (by simp [scanStep])
  | succ f ih =>
    intro fuel' j hp ha d hj h hf
    cases fuel' with
    | zero => omega
    | succ g =>
      simp only [scanStep] at h ⊢
      by_cases hd : d + balance (L.getD j []) = 0
      · rw [if_pos hd] at h
        have hjc : j = c := Option.some.inj h
        subst hjc
        rw [hnew, Bool.or_true]
        by_cases hd2 : d + balance (Lp.getD j []) = 0
        · rw [if_pos hd2]
        · rw [if_neg hd2]
          exact scanStep_ha_mono Lp g (j + 1) _ _
      · rw [if_neg hd] at h
        have hb := scanStep_closing_bounds L f (j + 1) _ _ _ c h
        have hjc : j < c := by omega
        rw [hagree j hjc, if_neg hd]
        exact ih g (j + 1) _ _ _ (by omega) h (by omega)

/-! ### Idempotence on line sequences with at most one marker line -/

/-- When at most one line of the input is an object-type marker line, running
the pass twice gives the same result as running it once: the only possible
insertion places a line containing the reject-unknown-keys marker inside the
marker's look-ahead window, so the second run's scan sees it and declines to
insert again.  (With several markers this fails, because an insertion jumps
the cursor past nested markers; see the counterexample.) -/
theorem patchPass_idem_of_unique_marker (L : List (List Char))
    (huniq : ∀ j, j < L.length → ∀ k, k < L.length →
      isMarkerLine (L.getD j []) = true →
      isMarkerLine (L.getD k []) = true → j = k) :
    patchPass (patchPass L) = patchPass L := by
  by_cases hex : ∃ m, m < L.length ∧ isMarkerLine (L.getD m []) = true
  case neg =>
    have hnm : ∀ j, 0 ≤ j → j < L.length → isMarkerLine (L.getD j []) = false := by
      intro j _ hj
      cases hq : isMarkerLine (L.getD j []) with
      | false => rfl
      | true => exact absurd ⟨j, hj, hq⟩ hex
    have hLP : patchPass L = L := by
      rw [patchPass_eq_patchRun, patchRun_no_marker L L.length 0 (by omega) hnm,
        List.drop_zero]
    rw [hLP]
    exact hLP
  case pos =>
    obtain ⟨m, hm, hmark⟩ := hex
    have hLnm : ∀ j, j < L.length → j ≠ m → isMarkerLine (L.getD j []) = false := by
      intro j hj hjm
      cases hq : isMarkerLine (L.getD j []) with
      | false => rfl
      | true => exact absurd (huniq j hj m hm hq hmark) hjm
    cases hcl : (scanBlock L m).closing with
    | none =>
      have hLP : patchPass L = L :=
        patchPass_eq_self_of_copy_at L m hm hLnm (patchRun_step_closing_none L m hm hcl)
      rw [hLP]
      exact hLP
    | some c =>
      cases hins :
          ((scanBlock L m).hasProps && !(scanBlock L m).hasAddl && (c != 0)) with
      | false =>
        have hLP : patchPass L = L :=
          patchPass_eq_self_of_copy_at L m hm hLnm (patchRun_step_no_insert L m c hm hcl hins)
        rw [hLP]
        exact hLP
      | true =>
        simp only [Bool.and_eq_true] at hins
        obtain ⟨⟨hp, ha⟩, hc0⟩ := hins
        have ha' : (scanBlock L m).hasAddl = false := by simpa using ha
        have hc0' : c ≠ 0 := by simpa using hc0
        have hb := scanBlock_closing_bounds L m hcl
        have hcL : c < L.length := hb.2.1
        have hPassL : patchPass L =
            L.take c ++
              (List.replicate (indentOf (L.getD c []) + 4) ' ' ++ addlDecl) :: L.drop c := by
          rw [patchPass_eq_patchRun,
            patchRun_copy_until L L.length 0 m (by omega) (by omega) (by omega)
              (fun j h1 h2 => hLnm j (by omega) (by omega)),
            patchRun_step_insert L m c hm hmark hcl hp ha' hc0',
            patchRun_no_marker L L.length (c + 1) (by omega)
              (fun j h1 h2 => hLnm j h2 (by omega)),
            middleSlice_eq L (m + 1) c (by omega) (by omega)]
          simp only [List.drop_zero, Nat.sub_zero]
          rw [take_decomp L m c (by omega) (by omega)]
          conv_rhs => rw [List.drop_eq_getElem_cons hcL]
          rw [List.getD_eq_getElem L [] hcL]
          simp [List.append_assoc]
        set newLine : List Char :=
          List.replicate (indentOf (L.getD c []) + 4) ' ' ++ addlDecl with hnewdef
        set E : List (List Char) := L.take c ++ newLine :: L.drop c with hEdef
        have hEget : ∀ k, E.getD k [] =
            if k < c then L.getD k [] else if k = c then newLine else L.getD (k - 1) [] :=
          getD_insertAt L newLine c (by omega)
        have hElen : E.length = L.length + 1 := length_insertAt L newLine c (by omega)
        have hmE : m < E.length := by omega
        have hEm : E.getD m [] = L.getD m [] := by
          rw [hEget m, if_pos (by omega)]
        have hEc : E.getD c [] = newLine := by
          rw [hEget c, if_neg (lt_irrefl c), if_pos rfl]
        have hEnm : ∀ j, j < E.length → j ≠ m → isMarkerLine (E.getD j []) = false := by
          intro j hj hjm
          rw [hEget j]
          by_cases h1 : j < c
          · rw [if_pos h1]
            cases hq : isMarkerLine (L.getD j []) with
            | false => rfl
            | true => exact absurd (huniq j (by omega) m hm hq hmark) hjm
          · rw [if_neg h1]
            by_cases h2 : j = c
            · rw [if_pos h2]
              exact inserted_not_marker _
            · rw [if_neg h2]
              cases hq : isMarkerLine (L.getD (j - 1) []) with
              | false => rfl
              | true => exact absurd (huniq (j - 1) (by omega) m hm hq hmark) (by omega)
        have hEscan : (scanBlock E m).hasAddl = true := by
          unfold scanBlock
          rw [hEm]
          have hclL : (scanStep L (min (m + 200) L.length - (m + 1)) (m + 1) false false
              (balance (L.getD m []))).closing = some c := hcl
          refine scanStep_insert_parallel L E c
            (fun k hk => by rw [hEget k, if_pos hk])
            (by rw [hEc]; exact inserted_hasAddl _)
            (min (m + 200) L.length - (m + 1)) _ (m + 1) false false _ (by omega) hclL ?_
          rw [hElen]
          omega
        have hEstep : patchRun E m = E.getD m [] :: patchRun E (m + 1) := by
          cases hcl2 : (scanBlock E m).closing with
          | none => exact patchRun_step_closing_none E m hmE hcl2
          | some c2 =>
            refine patchRun_step_no_insert E m c2 hmE hcl2 ?_
            rw [hEscan]
            simp
        have hPassE : patchPass E = E :=
          patchPass_eq_self_of_copy_at E m hmE hEnm hEstep
        rw [hPassL]
        exact hPassE

/-! ### String-level consequences -/

theorem mk_toList (s : String) : String.mk s.toList = s := rfl

/-- A file whose text contains neither spelling of the object-type marker is
mapped to itself by the patch pass. -/
theorem add_eq_self_of_no_marker (content : String)
    (h1 : listHas content.toList objSingle = false)
    (h2 : listHas content.toList objDouble = false) :
    add_additional_properties content = content := by
  unfold add_additional_properties
  have hnm : ∀ j, 0 ≤ j → j < (splitLines content.toList).length →
      isMarkerLine ((splitLines content.toList).getD j []) = false := by
    intro j _ hj
    have hpmem : (splitLines content.toList).getD j [] ∈ splitLines content.toList := by
      rw [List.getD_eq_getElem _ [] hj]
      exact List.getElem_mem _
    unfold isMarkerLine
    rw [not_listHas_piece objSingle content.toList _ hpmem h1,
      not_listHas_piece objDouble content.toList _ hpmem h2]
    rfl
  rw [patchPass_eq_patchRun,
    patchRun_no_marker (splitLines content.toList) (splitLines content.toList).length 0
      (by omega) hnm,
    List.drop_zero, joinLines_splitLines]
  exact mk_toList content

theorem patchPass_no_newline (L : List (List Char)) (h : ∀ p ∈ L, '\n' ∉ p) :
    ∀ p ∈ patchPass L, '\n' ∉ p := by
  intro p hp
  have hp2 : p ∈ patchFrom L L.length 0 := hp
  rcases (patchFrom_sublist_mem L L.length 0 (by omega)).2 p hp2 with hmem | ⟨n, rfl⟩
  · exact h p hmem
  · exact inserted_no_newline n

theorem patchPass_ne_nil (L : List (List Char)) (h : L ≠ []) : patchPass L ≠ [] := by
  have hs := (patchFrom_sublist_mem L L.length 0 (by omega)).1
  rw [List.drop_zero] at hs
  intro hnil
  have hnil2 : patchFrom L L.length 0 = [] := hnil
  rw [hnil2] at hs
  exact h (List.sublist_nil.mp hs)

/-- String-level idempotence under the unique-marker hypothesis. -/
theorem add_idem_of_unique_marker (content : String)
    (huniq : ∀ j, j < (splitLines content.toList).length →
      ∀ k, k < (splitLines content.toList).length →
      isMarkerLine ((splitLines content.toList).getD j []) = true →
      isMarkerLine ((splitLines content.toList).getD k []) = true → j = k) :
    add_additional_properties (add_additional_properties content) =
      add_additional_properties content := by
  unfold add_additional_properties
  have htl : (String.mk (joinLines (patchPass (splitLines content.toList)))).toList =
      joinLines (patchPass (splitLines content.toList)) := rfl
  rw [htl,
    splitLines_joinLines (patchPass (splitLines content.toList))
      (patchPass_ne_nil _ (splitLines_ne_nil _))
      (patchPass_no_newline _ (mem_splitLines_no_newline content.toList)),
    patchPass_idem_of_unique_marker _ huniq]

/-! ### process_file and main characterizations -/

theorem process_file_read_error (path e : String) (w : String → Except String Unit) :
    process_file path (Except.error e) w =
      FileResult.mk none false (some ("Error processing " ++ path ++ ": " ++ e)) := rfl

theorem process_file_no_marker (path content : String) (w : String → Except String Unit)
    (h1 : listHas content.toList objSingle = false)
    (h2 : listHas content.toList objDouble = false) :
    process_file path (Except.ok content) w = FileResult.mk none false none := by
  simp only [process_file]
  rw [h1, h2]
  rfl

theorem process_file_with_marker (path content : String) (w : String → Except String Unit)
    (hmm : (!(listHas content.toList objSingle) &&
      !(listHas content.toList objDouble)) = false) :
    process_file path (Except.ok content) w =
      if add_additional_properties content != content then
        match w (add_additional_properties content) with
        | Except.ok _ => FileResult.mk (some (add_additional_properties content)) true none
        | Except.error e => FileResult.mk (some (add_additional_properties content)) false
            (some ("Error processing " ++ path ++ ": " ++ e))
      else FileResult.mk none false none := by
  simp only [process_file]
  rw [hmm, if_neg Bool.false_ne_true]

theorem runFiles_processed (fs : List FileTask) : (runFiles fs).1 = fs.length := by
  induction fs with
  | nil => rfl
  | cons t ts ih => simp [runFiles, ih]

theorem main_missing_root (files : List FileTask) :
    main false files = (1, 0, 0, ["Error: src/tools directory not found"]) := rfl

/-! ## Claim theorems -/

/-- C1 (counterexample): the inner object-type block of `exNested` satisfies
the claim's hypothesis — its marker is line 2, its scan finds a properties
declaration at positive depth, no reject-unknown-keys declaration, and
closing line 4 — yet the pass's output contains no declaration line indented
for that block (8 spaces): the insertion made for the outer block moved the
cursor past the inner marker, so nothing is inserted before line 4. -/
theorem c1_counterexample :
    isMarkerLine (exNested.getD 2 []) = true ∧
    scanBlock exNested 2 = ScanResult.mk true false (some 4) ∧
    patchPass exNested =
      [exNested.getD 0 [], exNested.getD 1 [], exNested.getD 2 [], exNested.getD 3 [],
        exNested.getD 4 [], exNested.getD 5 [],
        ("    additionalProperties: false,").toList, exNested.getD 6 []] ∧
    ¬ (List.replicate 8 ' ' ++ addlDecl) ∈ patchPass exNested := by
  decide

/-- C1 (amended): for every object-type marker line the pass's cursor
actually reaches, if its scan finds `has_properties`, no
`has_additional_properties`, and a closing line `c`, then the loop emits the
lines up to `c` verbatim with exactly one synthesized reject-unknown-keys
declaration — indented four spaces past the closing line's indentation —
immediately before the closing line, and resumes after `c`. -/
theorem c1_insert_at_reached_marker (lines : List (List Char)) (i c : Nat)
    (h1 : i < lines.length) (hm : isMarkerLine (lines.getD i []) = true)
    (hscan : scanBlock lines i = ScanResult.mk true false (some c)) :
    patchRun lines i = lines.getD i [] ::
      (middleSlice lines (i + 1) c ++
        (List.replicate (indentOf (lines.getD c []) + 4) ' ' ++ addlDecl) ::
          lines.getD c [] :: patchRun lines (c + 1)) := by
  have hc : (scanBlock lines i).closing = some c := by rw [hscan]
  have hp : (scanBlock lines i).hasProps = true := by rw [hscan]
  have ha : (scanBlock lines i).hasAddl = false := by rw [hscan]
  have hb := scanBlock_closing_bounds lines i hc
  exact patchRun_step_insert lines i c h1 hm hc hp ha (by omega)

/-- C1 (witness): the flat block `exBlock` is patched exactly as the amended
claim states. -/
theorem c1_insert_at_reached_marker_witness :
    patchRun exBlock 0 =
      [exBlock.getD 0 [], exBlock.getD 1 [], exBlock.getD 2 [],
        ("    additionalProperties: false,").toList, exBlock.getD 3 []] := by
  have h := c1_insert_at_reached_marker exBlock 0 3 (by decide) (by decide) (by decide)
  rw [h]
  decide

/-- C2 (counterexample): the pass is not idempotent.  On `exNestedText` the
first run patches only the outer block (jumping over the nested marker); the
second run then patches the nested block, so applying the pass to its own
output changes the text again. -/
theorem c2_counterexample :
    add_additional_properties (add_additional_properties exNestedText) ≠
      add_additional_properties exNestedText := by
  decide

/-- C2 (amended): the pass is idempotent on every text in which at most one
line contains an object-type marker.  (In general idempotence fails: an
insertion jumps the cursor past nested markers, whose blocks are then
patched only by a later run.) -/
theorem c2_idem_of_unique_marker (content : String)
    (huniq : ∀ j, j < (splitLines content.toList).length →
      ∀ k, k < (splitLines content.toList).length →
      isMarkerLine ((splitLines content.toList).getD j []) = true →
      isMarkerLine ((splitLines content.toList).getD k []) = true → j = k) :
    add_additional_properties (add_additional_properties content) =
      add_additional_properties content :=
  add_idem_of_unique_marker content huniq

/-- C2 (witness): the single-marker text `exSingleText` is patched
idempotently. -/
theorem c2_idem_of_unique_marker_witness :
    add_additional_properties (add_additional_properties exSingleText) =
      add_additional_properties exSingleText :=
  c2_idem_of_unique_marker exSingleText (by decide)

/-- C3 (counterexample): `exPatchedText` is a single object-type block
(marker line 0, closing line 7) that already contains a reject-unknown-keys
declaration (line 6; the scan records `has_additional_properties`), yet the
pass does not leave the block byte-identical: it inserts into the nested
object block at lines 2–4, which lies inside the outer block. -/
theorem c3_counterexample :
    isMarkerLine ((splitLines exPatchedText.toList).getD 0 []) = true ∧
    scanBlock (splitLines exPatchedText.toList) 0 = ScanResult.mk true true (some 7) ∧
    add_additional_properties exPatchedText ≠ exPatchedText := by
  decide

/-- C3 (amended): when the scan opened at a marker line sees a
reject-unknown-keys declaration in its window, the step at that marker makes
no insertion: the marker line is copied verbatim and scanning resumes at the
next line.  (Nested object blocks inside the window may still be patched by
later steps, so the whole block region need not stay byte-identical.) -/
theorem c3_no_insert_when_addl_seen (lines : List (List Char)) (i : Nat)
    (h1 : i < lines.length) (_hm : isMarkerLine (lines.getD i []) = true)
    (ha : (scanBlock lines i).hasAddl = true) :
    patchRun lines i = lines.getD i [] :: patchRun lines (i + 1) := by
  cases hcl : (scanBlock lines i).closing with
  | none => exact patchRun_step_closing_none lines i h1 hcl
  | some c =>
    refine patchRun_step_no_insert lines i c h1 hcl ?_
    rw [ha]
    simp

/-- C3 (witness): the already-compliant block `exAddl` gets a plain copy
step at its marker. -/
theorem c3_no_insert_when_addl_seen_witness :
    patchRun exAddl 0 = exAddl.getD 0 [] :: patchRun exAddl 1 :=
  c3_no_insert_when_addl_seen exAddl 0 (by decide) (by decide) (by decide)

/-- C4: a file whose full text contains neither the single- nor the
double-quoted object-type marker is left untouched: `process_file` returns
before computing the transform, attempts no write, logs nothing, and reports
the file as not fixed. -/
theorem c4_skip_without_marker (path content : String) (w : String → Except String Unit)
    (h1 : listHas content.toList objSingle = false)
    (h2 : listHas content.toList objDouble = false) :
    process_file path (Except.ok content) w = FileResult.mk none false none :=
  process_file_no_marker path content w h1 h2

/-- C4 (witness): a marker-free JavaScript file is skipped. -/
theorem c4_skip_without_marker_witness :
    process_file "a.js" (Except.ok "function foo() \x7b return 1; \x7d")
      (fun _ => Except.ok ()) = FileResult.mk none false none :=
  c4_skip_without_marker "a.js" "function foo() \x7b return 1; \x7d"
    (fun _ => Except.ok ()) (by decide) (by decide)

/-- C5: when the scan opened at a marker line records no closing line (brace
nesting does not return to zero within the look-ahead window, which covers
at most the 199 lines after the marker and is truncated at end of input),
the block is left untouched and no error is raised: the marker line is
copied verbatim and scanning continues from the line after the marker. -/
theorem c5_unterminated_block_untouched (lines : List (List Char)) (i : Nat)
    (h1 : i < lines.length) (_hm : isMarkerLine (lines.getD i []) = true)
    (hcl : (scanBlock lines i).closing = none) :
    patchRun lines i = lines.getD i [] :: patchRun lines (i + 1) :=
  patchRun_step_closing_none lines i h1 hcl

/-- C5 (witness): the unterminated block `exUnterminated` is copied. -/
theorem c5_unterminated_block_untouched_witness :
    patchRun exUnterminated 0 = exUnterminated.getD 0 [] :: patchRun exUnterminated 1 :=
  c5_unterminated_block_untouched exUnterminated 0 (by decide) (by decide) (by decide)

/-- C6: with the write action succeeding, a file is written (and reported
fixed) if and only if the transformed text differs from the original; when
the transform is the identity on the file's text, the file is not written
and reported unmodified.  (The early skip of marker-free files agrees with
this: such texts are fixed points of the transform.) -/
theorem c6_write_iff_changed (path content : String) (w : String → Except String Unit)
    (hw : w (add_additional_properties content) = Except.ok ()) :
    ((process_file path (Except.ok content) w).written.isSome = true ↔
      add_additional_properties content ≠ content) ∧
    (process_file path (Except.ok content) w).fixed =
      (process_file path (Except.ok content) w).written.isSome ∧
    (add_additional_properties content = content →
      process_file path (Except.ok content) w = FileResult.mk none false none) := by
  cases hmm : (!(listHas content.toList objSingle) && !(listHas content.toList objDouble)) with
  | true =>
    simp only [Bool.and_eq_true, Bool.not_eq_true'] at hmm
    obtain ⟨h1, h2⟩ := hmm
    have heq := add_eq_self_of_no_marker content h1 h2
    rw [process_file_no_marker path content w h1 h2]
    refine ⟨⟨fun hfalse => by simp at hfalse, fun hne => absurd heq hne⟩, rfl, fun _ => rfl⟩
  | false =>
    rw [process_file_with_marker path content w hmm]
    cases hbe : (add_additional_properties content != content) with
    | true =>
      have hne : add_additional_properties content ≠ content := by simpa using hbe
      rw [if_pos rfl, hw]
      exact ⟨⟨fun _ => hne, fun _ => rfl⟩, rfl, fun hEq => absurd hEq hne⟩
    | false =>
      have heq : add_additional_properties content = content := by simpa using hbe
      rw [if_neg Bool.false_ne_true]
      refine ⟨⟨fun hfalse => by simp at hfalse, fun hne => absurd heq hne⟩, rfl, fun _ => rfl⟩

/-- C6 (witness): on `exSingleText` (which the pass changes) the file is
written; combined with the theorem this exhibits the iff concretely. -/
theorem c6_write_iff_changed_witness :
    (process_file "b.js" (Except.ok exSingleText)
      (fun _ => Except.ok ())).written.isSome = true :=
  (c6_write_iff_changed "b.js" exSingleText (fun _ => Except.ok ()) rfl).1.mpr (by decide)

/-- C7: every read or write failure is caught inside `process_file`: the
handler emits one stderr line made of the file path and the error message,
the file is reported not fixed, and the run still processes every file of
the list (one per task, regardless of outcomes). -/
theorem c7_errors_caught :
    (∀ (path e : String) (w : String → Except String Unit),
      process_file path (Except.error e) w =
        FileResult.mk none false (some ("Error processing " ++ path ++ ": " ++ e))) ∧
    (∀ (path content e : String) (w : String → Except String Unit),
      (!(listHas content.toList objSingle) && !(listHas content.toList objDouble)) = false →
      (add_additional_properties content != content) = true →
      w (add_additional_properties content) = Except.error e →
      process_file path (Except.ok content) w =
        FileResult.mk (some (add_additional_properties content)) false
          (some ("Error processing " ++ path ++ ": " ++ e))) ∧
    (∀ fs : List FileTask, (runFiles fs).1 = fs.length) := by
  refine ⟨fun path e w => process_file_read_error path e w, ?_, runFiles_processed⟩
  intro path content e w hmm hne hw
  rw [process_file_with_marker path content w hmm, if_pos hne, hw]

/-- C7 (witness): a failing read and a failing write are both caught and
logged, and the run count still advances. -/
theorem c7_errors_caught_witness :
    process_file "c.js" (Except.error "disk error") (fun _ => Except.ok ()) =
      FileResult.mk none false (some "Error processing c.js: disk error") ∧
    process_file "d.js" (Except.ok exC7Text) (fun _ => Except.error "denied") =
      FileResult.mk (some (add_additional_properties exC7Text)) false
        (some "Error processing d.js: denied") ∧
    (runFiles [FileTask.mk "c.js" (Except.error "disk error") (fun _ => Except.ok ())]).1 = 1 := by
  refine ⟨?_, ?_, c7_errors_caught.2.2 _⟩
  · rw [c7_errors_caught.1 "c.js" "disk error" (fun _ => Except.ok ())]
    decide
  · rw [c7_errors_caught.2.1 "d.js" exC7Text "denied" (fun _ => Except.error "denied")
      (by decide) (by decide) rfl]
    decide

/-- C8: the run's exit status is non-zero iff the root directory is missing;
in that case nothing is processed (the run aborts before touching any file);
if the root exists the status is zero no matter how the individual files
fare. -/
theorem c8_exit_status (rootExists : Bool) (files : List FileTask) :
    ((main rootExists files).1 ≠ 0 ↔ rootExists = false) ∧
    (rootExists = false → (main rootExists files).2.1 = 0) ∧
    (rootExists = true → (main rootExists files).1 = 0) := by
  cases rootExists with
  | false =>
    refine ⟨⟨fun _ => rfl, fun _ => ?_⟩, fun _ => rfl, fun h => Bool.noConfusion h⟩
    rw [main_missing_root]
    exact one_ne_zero
  | true =>
    exact ⟨⟨fun h => absurd rfl h, fun h => Bool.noConfusion h⟩,
      fun h => Bool.noConfusion h, fun _ => rfl⟩

/-- C8 (witness): concrete runs with a missing and with a present root. -/
theorem c8_exit_status_witness :
    ((main false []).1 ≠ 0 ↔ false = false) ∧ (main true []).1 = 0 :=
  ⟨(c8_exit_status false []).1, (c8_exit_status true []).2.2 rfl⟩

/-- C9: the pass only inserts: every input line appears verbatim and in its
original order in the output (the input line sequence is a sublist of the
output), the output is at least as long as the input, and every output line
is either an input line or a synthesized reject-unknown-keys declaration
(some indentation followed by the declaration text). -/
theorem c9_only_inserts (lines : List (List Char)) :
    lines.Sublist (patchPass lines) ∧
    lines.length ≤ (patchPass lines).length ∧
    ∀ l ∈ patchPass lines, l ∈ lines ∨ ∃ n, l = List.replicate n ' ' ++ addlDecl := by
  have h := patchFrom_sublist_mem lines lines.length 0 (by omega)
  rw [List.drop_zero] at h
  have hsub : lines.Sublist (patchPass lines) := h.1
  exact ⟨hsub, hsub.length_le, h.2⟩

/-- C9 (witness): instantiated on the one-line schema `exOneLine`. -/
theorem c9_only_inserts_witness :
    exOneLine.Sublist (patchPass exOneLine) ∧
    (exOneLine.getD 0 [] ∈ exOneLine ∨
      ∃ n, exOneLine.getD 0 [] = List.replicate n ' ' ++ addlDecl) :=
  ⟨(c9_only_inserts exOneLine).1, (c9_only_inserts exOneLine).2.2 _ (by decide)⟩

/-- C10: the loop of `add_additional_properties` terminates in one bounded
traversal: its cursor strictly increases every iteration (a recorded closing
line is always ahead of the marker), so one fuel unit per remaining line
suffices and any larger fuel budget computes the same output. -/
theorem c10_bounded_traversal (lines : List (List Char)) (fuel i : Nat)
    (h : lines.length - i ≤ fuel) :
    patchFrom lines fuel i = patchRun lines i ∧
    ∀ c, (scanBlock lines i).closing = some c → i < c := by
  refine ⟨(patchRun_eq_patchFrom lines fuel i h).symm, fun c hc => ?_⟩
  have hb := scanBlock_closing_bounds lines i hc
  omega

/-- C10 (witness): a large fuel budget agrees with the canonical one on
`exBlock`, whose scan records closing line 3 ahead of the marker. -/
theorem c10_bounded_traversal_witness :
    patchFrom exBlock 1000 0 = patchRun exBlock 0 ∧ (0 : Nat) < 3 :=
  ⟨(c10_bounded_traversal exBlock 1000 0 (by decide)).1,
    (c10_bounded_traversal exBlock 1000 0 (by decide)).2 3 (by decide)⟩

end SchemaPatcher
